import Mathlib

/-!
Verification of the openbar-notifier item synchronization engine.

This development shallowly embeds the core of the repository:
the sorted item store (src/openbar-notifier/src/store.rs), the diff loop,
the payload truncation and the per-target dispatch loop
(src/openbar-notifier/src/main.rs), and proves the specified properties
about them.
-/

/-- Modelled from the spec: the buyability state of an item. The enum
`ItemState` lives in the openbar-api models crate (not in the provided
sources); spec section 3 and the exhaustive match in main.rs lines 85-92
give exactly the two variants `ItemBuyable` and `ItemNotBuyable`. -/
inductive ItemState where
  | ItemBuyable : ItemState
  | ItemNotBuyable : ItemState
deriving DecidableEq, Repr

/-- Modelled from the spec: an item of the remote catalog. The struct lives
in the openbar-api models crate (not in the provided sources); spec section 3
and the field accesses in main.rs give a stable unique identifier (a
UUID-class value, modelled as a natural number with its order), a name, a
buyability state and a non-negative remaining-stock count `amount_left`. -/
structure Item where
  id : Nat
  name : String
  state : ItemState
  amount_left : Nat
deriving DecidableEq, Repr

instance : Inhabited Item := ⟨⟨0, "", ItemState.ItemNotBuyable, 0⟩⟩

/-- Events for an item, from src/openbar-notifier/src/event.rs. -/
inductive ItemEvent where
  | Added : ItemEvent
  | BecomeBuyable : ItemEvent
  | BecomeUnbuyable : ItemEvent
  | OutOfStock : ItemEvent
deriving DecidableEq, Repr

/-- Fuel-indexed core of Rust `slice::binary_search_by_key` as used by the
item store: the standard left/right midpoint loop. `fuel` bounds the number
of iterations; every call site passes `fuel ≥ right - left`, which makes the
fuel inexhaustible (each iteration shrinks `right - left`). Out-of-range
reads use `getD` with default 0; call sites keep `right ≤ keys.length`.
Returns `.ok i` when `keys[i] = key` and `.error i` with the insertion
point otherwise. -/
def bsGoF (keys : List Nat) (key : Nat) : Nat → Nat → Nat → Except Nat Nat
  | 0, left, _ => .error left
  | fuel + 1, left, right =>
    if left < right then
      let mid := left + (right - left) / 2
      if keys.getD mid 0 < key then
        bsGoF keys key fuel (mid + 1) right
      else if key < keys.getD mid 0 then
        bsGoF keys key fuel left mid
      else
        .ok mid
    else
      .error left

/-- Rust `slice::binary_search_by_key(&key, |i| i.id)` over the whole list
of keys, as called by every ItemStore operation (store.rs lines 37, 53,
61, 69-72). -/
def binarySearch (keys : List Nat) (key : Nat) : Except Nat Nat :=
  bsGoF keys key keys.length 0 keys.length

/-- The item store (store.rs): internally an ordered list of items. -/
structure ItemStore where
  items : List Item
deriving DecidableEq, Repr

/-- `ItemStore::new` (store.rs lines 20-22). -/
def ItemStore.new : ItemStore := ⟨[]⟩

/-- The list of item identifiers of a store, in store order; this is the
key sequence that the Rust code's `binary_search_by_key(_, |i| i.id)`
searches. -/
def storeKeys (s : ItemStore) : List Nat := s.items.map Item.id

/-- `ItemStore::clear` (store.rs lines 30-32). -/
def ItemStore.clear (_s : ItemStore) : ItemStore := ⟨[]⟩

/-- `ItemStore::append` (store.rs lines 35-48): binary search by id; if the
id is already present do nothing and return false, otherwise insert at the
returned insertion point and return true. Rust mutates in place; here the
updated store is returned alongside the boolean. -/
def ItemStore.append (s : ItemStore) (item : Item) : Bool × ItemStore :=
  match binarySearch (storeKeys s) item.id with
  | .ok _ => (false, s)
  | .error idx => (true, ⟨s.items.insertIdx idx item⟩)

/-- `ItemStore::find` (store.rs lines 51-57): binary search by id, returning
the element at the found index. -/
def ItemStore.find (s : ItemStore) (item_id : Nat) : Option Item :=
  match binarySearch (storeKeys s) item_id with
  | .ok idx => s.items[idx]?
  | .error _ => none

/-- `ItemStore::replace` (store.rs lines 68-80): binary search by id; on a
hit return the previous element and overwrite that slot with the new item;
on a miss fail with `()` (the Rust `Err(())`) and leave the store as it was.
Rust mutates in place; here the resulting store is returned in the second
component. -/
def ItemStore.replace (s : ItemStore) (new_item : Item) : Except Unit Item × ItemStore :=
  match binarySearch (storeKeys s) new_item.id with
  | .ok idx => (.ok (s.items.getD idx default), ⟨s.items.set idx new_item⟩)
  | .error _ => (.error (), s)

/-- The buyability-transition event chosen by the match on the freshly
fetched state in main.rs lines 85-92. -/
def buyEvent : ItemState → ItemEvent
  | ItemState.ItemBuyable => ItemEvent.BecomeBuyable
  | ItemState.ItemNotBuyable => ItemEvent.BecomeUnbuyable

/-- State threaded through the diff loop of main.rs: the item store plus the
accumulated `(item id, event)` list `item_events`. -/
structure DiffState where
  store : ItemStore
  events : List (Nat × ItemEvent)
deriving DecidableEq, Repr

/-- One iteration of the diff loop body (main.rs lines 80-105) for a single
fetched item. `find_mut` is the same binary search as `find`; on a hit the
buyability transition and the out-of-stock transition are checked (in that
push order) and the slot is overwritten with the fetched item; on a miss the
item is appended to the store and an `Added` event is pushed. -/
def diffStep (st : DiffState) (item : Item) : DiffState :=
  match binarySearch (storeKeys st.store) item.id with
  | .ok idx =>
    let existing := st.store.items.getD idx default
    let ev1 := if existing.state ≠ item.state then [(item.id, buyEvent item.state)] else []
    let ev2 :=
      if existing.amount_left > 0 ∧ item.amount_left = 0 then
        [(item.id, ItemEvent.OutOfStock)]
      else []
    { store := ⟨st.store.items.set idx item⟩, events := st.events ++ ev1 ++ ev2 }
  | .error _ =>
    { store := (st.store.append item).2, events := st.events ++ [(item.id, ItemEvent.Added)] }

/-- The whole diff pass of one run (main.rs lines 71-115) over the
concatenated per-category item lists, starting from the loaded store and an
empty `item_events` vector. -/
def runDiff (store : ItemStore) (items : List Item) : DiffState :=
  items.foldl diffStep { store := store, events := [] }

/-- The bytes of the notice `"\n... (truncated)"` appended by main.rs
line 164 (newline, three dots, space, parenthesized word). -/
def truncationNotice : List Nat :=
  [10, 46, 46, 46, 32, 40, 116, 114, 117, 110, 99, 97, 116, 101, 100, 41]

/-- The payload truncation of main.rs lines 162-166: a rendered payload of
more than 2000 bytes is truncated to 1800 bytes and the notice is appended;
otherwise the payload is left untouched. -/
def truncateBuf (buf : List Nat) : List Nat :=
  if buf.length > 2000 then buf.take 1800 ++ truncationNotice else buf

/-- The dispatch loop of main.rs lines 160-192 over the configured targets.
`respond` abstracts the outcome of the HTTP POST to one target (true =
success status, false = network error or non-success status); the loop body
only logs the outcome, so every target is attempted whatever the earlier
outcomes were, and nothing at all is attempted when the payload is empty.
The result lists each attempted target with its outcome, in order. -/
def dispatchAll {τ : Type} (respond : τ → Bool) (buf : List Nat) (targets : List τ) :
    List (τ × Bool) :=
  if buf.isEmpty then [] else targets.map (fun t => (t, respond t))

/-- Abstract steps of one run of `main` (main.rs lines 14-198). -/
inductive Step where
  | loadConfig : Step
  | getWebconfig : Step
  | login : Step
  | loadStore : Step
  | fetchCategories : Step
  | fetchItems : Nat → Step
  | diffCategory : Nat → Step
  | logout : Step
  | render : Step
  | dispatch : Step
  | saveStore : Step
deriving DecidableEq, Repr

/-- The per-category steps of the fetch/diff loop, in category order:
category `c` is fetched and then diffed before category `c+1` is touched. -/
def catSteps : Nat → List Step
  | 0 => []
  | n + 1 => catSteps n ++ [Step.fetchItems n, Step.diffCategory n]

/-- The sequence of steps of a successful run of `main` with `n` categories,
in program order (main.rs): configuration load, webconfig fetch, login,
item-store load, category-list fetch, the per-category fetch/diff loop,
logout, event rendering, notification dispatch, store save. -/
def mainTrace (n : Nat) : List Step :=
  [Step.loadConfig, Step.getWebconfig, Step.login, Step.loadStore, Step.fetchCategories]
    ++ catSteps n
    ++ [Step.logout, Step.render, Step.dispatch, Step.saveStore]

/-- Store operations named by claim C3. -/
inductive StoreOp where
  | append : Item → StoreOp
  | replace : Item → StoreOp
  | clear : StoreOp

/-- Apply one store operation (the failing `replace` leaves the store as the
Rust code does). -/
def applyOp (s : ItemStore) : StoreOp → ItemStore
  | StoreOp.append it => (s.append it).2
  | StoreOp.replace it => (s.replace it).2
  | StoreOp.clear => s.clear

/-- Apply a sequence of store operations in order. -/
def applyOps (s : ItemStore) (ops : List StoreOp) : ItemStore :=
  ops.foldl applyOp s

/-- Strict sortedness of a key sequence: any earlier key is smaller. This is
the store invariant maintained by store.rs (sorted by id, no duplicate
ids). -/
def StrictSorted (keys : List Nat) : Prop :=
  ∀ j, j < keys.length → ∀ i, i < j → keys.getD i 0 < keys.getD j 0

instance (keys : List Nat) : Decidable (StrictSorted keys) := by
  unfold StrictSorted
  infer_instance

/-- The store invariant: the id sequence is strictly sorted. -/
def StoreSorted (s : ItemStore) : Prop := StrictSorted (storeKeys s)

instance (s : ItemStore) : Decidable (StoreSorted s) := by
  unfold StoreSorted
  infer_instance

instance {ε α : Type} [DecidableEq ε] [DecidableEq α] : DecidableEq (Except ε α) := fun a b =>
  match a, b with
  | .ok x, .ok y => if h : x = y then isTrue (by rw [h]) else isFalse (by simp [h])
  | .ok _, .error _ => isFalse (by simp)
  | .error _, .ok _ => isFalse (by simp)
  | .error x, .error y => if h : x = y then isTrue (by rw [h]) else isFalse (by simp [h])

/-! ### List helper lemmas -/

theorem getD_eq_of_getElem {α : Type} (l : List α) (d : α) (i : Nat) (h : i < l.length) :
    l.getD i d = l[i] :=
  List.getD_eq_getElem l d h

theorem getD_mem {α : Type} (l : List α) (d : α) (i : Nat) (h : i < l.length) :
    l.getD i d ∈ l := by
  rw [getD_eq_of_getElem l d i h]
  exact List.getElem_mem h

theorem mem_getD {α : Type} (l : List α) (d : α) (a : α) (h : a ∈ l) :
    ∃ i, i < l.length ∧ l.getD i d = a := by
  obtain ⟨i, hi, hv⟩ := List.mem_iff_getElem.1 h
  exact ⟨i, hi, by rw [getD_eq_of_getElem l d i hi, hv]⟩

theorem set_self_of_getElem {α : Type} (l : List α) (i : Nat) (a : α) (h : i < l.length)
    (ha : l[i] = a) : l.set i a = l := by
  apply List.ext_getElem (by simp)
  intro j h1 h2
  by_cases hj : i = j
  · subst hj
    simpa [List.getElem_set_self] using ha.symm
  · exact List.getElem_set_ne hj h1

theorem getD_insertIdx {α : Type} (a d : α) :
    ∀ (i : Nat) (l : List α) (j : Nat), i ≤ l.length →
      (l.insertIdx i a).getD j d =
        if j < i then l.getD j d else if j = i then a else l.getD (j - 1) d
  | 0, l, j, _ => by
    cases j with
    | zero => simp
    | succ jj => simp
  | ii + 1, [], _, hi => by simp at hi
  | ii + 1, h :: t, j, hi => by
    cases j with
    | zero => simp
    | succ jj =>
      have ht : ii ≤ t.length := by simpa using hi
      simp only [List.insertIdx_succ_cons, List.getD_cons_succ]
      rw [getD_insertIdx a d ii t jj ht]
      rcases Nat.lt_trichotomy jj ii with h1 | h1 | h1
      · rw [if_pos h1, if_pos (by omega : jj + 1 < ii + 1)]
      · rw [if_neg (by omega : ¬ jj < ii), if_pos h1,
          if_neg (by omega : ¬ jj + 1 < ii + 1), if_pos (by omega : jj + 1 = ii + 1)]
      · rw [if_neg (by omega : ¬ jj < ii), if_neg (by omega : ¬ jj = ii),
          if_neg (by omega : ¬ jj + 1 < ii + 1), if_neg (by omega : ¬ jj + 1 = ii + 1)]
        have heq : jj + 1 - 1 = (jj - 1) + 1 := by omega
        rw [heq, List.getD_cons_succ]

theorem map_insertIdx {α β : Type} (f : α → β) (a : α) :
    ∀ (i : Nat) (l : List α), (l.insertIdx i a).map f = (l.map f).insertIdx i (f a)
  | 0, l => by simp
  | _ + 1, [] => by simp
  | ii + 1, h :: t => by
    simp only [List.insertIdx_succ_cons, List.map_cons]
    rw [map_insertIdx f a ii t]

theorem strictSorted_key_unique (keys : List Nat) (hs : StrictSorted keys) (k : Nat)
    (i j : Nat) (hi : i < keys.length) (hj : j < keys.length)
    (hvi : keys.getD i 0 = k) (hvj : keys.getD j 0 = k) : i = j := by
  rcases Nat.lt_trichotomy i j with h | h | h
  · have := hs j hj i h
    omega
  · exact h
  · have := hs i hi j h
    omega

theorem strictSorted_insertIdx (keys : List Nat) (k : Nat) (i : Nat) (hi : i ≤ keys.length)
    (hs : StrictSorted keys) (hl : ∀ j, j < i → keys.getD j 0 < k)
    (hr : ∀ j, i ≤ j → j < keys.length → k < keys.getD j 0) :
    StrictSorted (keys.insertIdx i k) := by
  intro b hb a hab
  have hlen : (keys.insertIdx i k).length = keys.length + 1 :=
    List.length_insertIdx i keys hi
  rw [hlen] at hb
  rw [getD_insertIdx k 0 i keys a hi, getD_insertIdx k 0 i keys b hi]
  rcases Nat.lt_trichotomy a i with ha1 | ha1 | ha1 <;>
    rcases Nat.lt_trichotomy b i with hb1 | hb1 | hb1
  · rw [if_pos ha1, if_pos hb1]
    exact hs b (by omega) a hab
  · rw [if_pos ha1, if_neg (by omega : ¬ b < i), if_pos hb1]
    exact hl a (by omega)
  · rw [if_pos ha1, if_neg (by omega : ¬ b < i), if_neg (by omega : ¬ b = i)]
    exact hs (b - 1) (by omega) a (by omega)
  · exact absurd hab (by omega)
  · exact absurd hab (by omega)
  · rw [if_neg (by omega : ¬ a < i), if_pos ha1, if_neg (by omega : ¬ b < i),
      if_neg (by omega : ¬ b = i)]
    exact hr (b - 1) (by omega) (by omega)
  · exact absurd hab (by omega)
  · exact absurd hab (by omega)
  · rw [if_neg (by omega : ¬ a < i), if_neg (by omega : ¬ a = i),
      if_neg (by omega : ¬ b < i), if_neg (by omega : ¬ b = i)]
    exact hs (b - 1) (by omega) (a - 1) (by omega)

theorem strictSorted_nodup (keys : List Nat) (hs : StrictSorted keys) : keys.Nodup := by
  rw [List.nodup_iff_getElem?_ne_getElem?]
  intro i j hij hj
  have h1 := hs j hj i hij
  rw [List.getElem?_eq_getElem (by omega), List.getElem?_eq_getElem hj]
  intro hc
  rw [getD_eq_of_getElem keys 0 i (by omega), getD_eq_of_getElem keys 0 j hj] at h1
  have : keys[i] = keys[j] := by simpa using hc
  omega

/-! ### Binary search specification -/

theorem bsGoF_ok (keys : List Nat) (key : Nat) :
    ∀ fuel left right i, bsGoF keys key fuel left right = .ok i →
      left ≤ i ∧ i < right ∧ keys.getD i 0 = key := by
  intro fuel
  induction fuel with
  | zero =>
    intro left right i h
    simp [bsGoF] at h
  | succ f ih =>
    intro left right i h
    rw [bsGoF] at h
    by_cases hlr : left < right
    · rw [if_pos hlr] at h
      simp only at h
      by_cases h1 : keys.getD (left + (right - left) / 2) 0 < key
      · rw [if_pos h1] at h
        obtain ⟨ha, hb, hc⟩ := ih _ _ _ h
        exact ⟨by omega, hb, hc⟩
      · rw [if_neg h1] at h
        by_cases h2 : key < keys.getD (left + (right - left) / 2) 0
        · rw [if_pos h2] at h
          obtain ⟨ha, hb, hc⟩ := ih _ _ _ h
          exact ⟨ha, by omega, hc⟩
        · rw [if_neg h2] at h
          have hi : i = left + (right - left) / 2 := by
            cases h
            rfl
          subst hi
          exact ⟨by omega, by omega, by omega⟩
    · rw [if_neg hlr] at h
      cases h

theorem bsGoF_err (keys : List Nat) (key : Nat) (hs : StrictSorted keys) :
    ∀ fuel left right i, right - left ≤ fuel → left ≤ right → right ≤ keys.length →
      (∀ j, j < left → keys.getD j 0 < key) →
      (∀ j, right ≤ j → j < keys.length → key < keys.getD j 0) →
      bsGoF keys key fuel left right = .error i →
      i ≤ keys.length ∧ (∀ j, j < i → keys.getD j 0 < key) ∧
        (∀ j, i ≤ j → j < keys.length → key < keys.getD j 0) := by
  intro fuel
  induction fuel with
  | zero =>
    intro left right i hfuel hlr hrlen hl hr h
    have : left = right := by omega
    subst this
    simp [bsGoF] at h
    subst h
    exact ⟨by omega, hl, fun j hj1 hj2 => hr j (by omega) hj2⟩
  | succ f ih =>
    intro left right i hfuel hlr hrlen hl hr h
    rw [bsGoF] at h
    by_cases hltr : left < right
    · rw [if_pos hltr] at h
      simp only at h
      have hmid1 : left ≤ left + (right - left) / 2 := by omega
      have hmid2 : left + (right - left) / 2 < right := by omega
      have hmidlen : left + (right - left) / 2 < keys.length := by omega
      by_cases h1 : keys.getD (left + (right - left) / 2) 0 < key
      · rw [if_pos h1] at h
        refine ih (left + (right - left) / 2 + 1) right i (by omega) (by omega) hrlen ?_ hr h
        intro j hj
        by_cases hjl : j < left
        · exact hl j hjl
        · by_cases hje : j = left + (right - left) / 2
          · subst hje
            exact h1
          · have := hs (left + (right - left) / 2) hmidlen j (by omega)
            omega
      · rw [if_neg h1] at h
        by_cases h2 : key < keys.getD (left + (right - left) / 2) 0
        · rw [if_pos h2] at h
          refine ih left (left + (right - left) / 2) i (by omega) (by omega) (by omega) hl ?_ h
          intro j hj1 hj2
          by_cases hjr : right ≤ j
          · exact hr j hjr hj2
          · by_cases hje : j = left + (right - left) / 2
            · subst hje
              exact h2
            · have := hs j hj2 (left + (right - left) / 2) (by omega)
              omega
        · rw [if_neg h2] at h
          cases h
    · rw [if_neg hltr] at h
      have : left = right := by omega
      subst this
      cases h
      exact ⟨by omega, hl, fun j hj1 hj2 => hr j (by omega) hj2⟩

theorem binarySearch_ok (keys : List Nat) (key : Nat) (i : Nat)
    (h : binarySearch keys key = .ok i) :
    i < keys.length ∧ keys.getD i 0 = key := by
  obtain ⟨_, h2, h3⟩ := bsGoF_ok keys key keys.length 0 keys.length i h
  exact ⟨h2, h3⟩

theorem binarySearch_err (keys : List Nat) (key : Nat) (i : Nat) (hs : StrictSorted keys)
    (h : binarySearch keys key = .error i) :
    i ≤ keys.length ∧ (∀ j, j < i → keys.getD j 0 < key) ∧
      (∀ j, i ≤ j → j < keys.length → key < keys.getD j 0) := by
  exact bsGoF_err keys key hs keys.length 0 keys.length i (by omega) (by omega) (by omega)
    (by omega) (by omega) h

theorem binarySearch_err_not_mem (keys : List Nat) (key : Nat) (i : Nat) (hs : StrictSorted keys)
    (h : binarySearch keys key = .error i) : key ∉ keys := by
  intro hmem
  obtain ⟨j, hj, hjv⟩ := mem_getD keys 0 key hmem
  obtain ⟨_, hlt, hgt⟩ := binarySearch_err keys key i hs h
  by_cases hji : j < i
  · have := hlt j hji
    omega
  · have := hgt j (by omega) hj
    omega

theorem binarySearch_mem_ok (keys : List Nat) (key : Nat) (hs : StrictSorted keys)
    (hmem : key ∈ keys) : ∃ i, binarySearch keys key = .ok i := by
  cases hbs : binarySearch keys key with
  | ok i => exact ⟨i, rfl⟩
  | error i => exact absurd hmem (binarySearch_err_not_mem keys key i hs hbs)

/-! ### Store-level lemmas -/

theorem find_eq_ok (s : ItemStore) (k : Nat) (idx : Nat)
    (h : binarySearch (storeKeys s) k = .ok idx) : s.find k = s.items[idx]? := by
  unfold ItemStore.find
  rw [h]

theorem find_eq_err (s : ItemStore) (k : Nat) (i : Nat)
    (h : binarySearch (storeKeys s) k = .error i) : s.find k = none := by
  unfold ItemStore.find
  rw [h]

theorem append_eq_ok (s : ItemStore) (item : Item) (idx : Nat)
    (h : binarySearch (storeKeys s) item.id = .ok idx) : s.append item = (false, s) := by
  unfold ItemStore.append
  rw [h]

theorem append_eq_err (s : ItemStore) (item : Item) (idx : Nat)
    (h : binarySearch (storeKeys s) item.id = .error idx) :
    s.append item = (true, ⟨s.items.insertIdx idx item⟩) := by
  unfold ItemStore.append
  rw [h]

theorem replace_eq_ok (s : ItemStore) (item : Item) (idx : Nat)
    (h : binarySearch (storeKeys s) item.id = .ok idx) :
    s.replace item = (.ok (s.items.getD idx default), ⟨s.items.set idx item⟩) := by
  unfold ItemStore.replace
  rw [h]

theorem replace_eq_err (s : ItemStore) (item : Item) (i : Nat)
    (h : binarySearch (storeKeys s) item.id = .error i) :
    s.replace item = (.error (), s) := by
  unfold ItemStore.replace
  rw [h]

theorem diffStep_eq_ok (st : DiffState) (item : Item) (idx : Nat)
    (h : binarySearch (storeKeys st.store) item.id = .ok idx) :
    diffStep st item =
      { store := ⟨st.store.items.set idx item⟩,
        events := st.events
          ++ (if (st.store.items.getD idx default).state ≠ item.state then
                [(item.id, buyEvent item.state)] else [])
          ++ (if (st.store.items.getD idx default).amount_left > 0 ∧ item.amount_left = 0 then
                [(item.id, ItemEvent.OutOfStock)] else []) } := by
  unfold diffStep
  rw [h]

theorem diffStep_eq_err (st : DiffState) (item : Item) (i : Nat)
    (h : binarySearch (storeKeys st.store) item.id = .error i) :
    diffStep st item =
      { store := (st.store.append item).2,
        events := st.events ++ [(item.id, ItemEvent.Added)] } := by
  unfold diffStep
  rw [h]

theorem storeKeys_length (s : ItemStore) : (storeKeys s).length = s.items.length := by
  simp [storeKeys]

theorem storeKeys_getD (s : ItemStore) (i : Nat) (h : i < s.items.length) :
    (storeKeys s).getD i 0 = (s.items.getD i default).id := by
  rw [getD_eq_of_getElem s.items default i h,
    getD_eq_of_getElem (storeKeys s) 0 i (by simpa [storeKeys_length] using h)]
  simp [storeKeys]

theorem mem_storeKeys (s : ItemStore) (k : Nat) :
    k ∈ storeKeys s ↔ ∃ it, it ∈ s.items ∧ it.id = k := by
  constructor
  · intro h
    obtain ⟨it, hmem, hid⟩ := List.mem_map.1 h
    exact ⟨it, hmem, hid⟩
  · rintro ⟨it, hmem, hid⟩
    exact List.mem_map.2 ⟨it, hmem, hid⟩

theorem find_some_iff (s : ItemStore) (hs : StoreSorted s) (k : Nat) (it : Item) :
    s.find k = some it ↔ it ∈ s.items ∧ it.id = k := by
  constructor
  · intro h
    cases hbs : binarySearch (storeKeys s) k with
    | error i => rw [find_eq_err s k i hbs] at h; cases h
    | ok idx =>
      rw [find_eq_ok s k idx hbs] at h
      obtain ⟨hlt, hval⟩ := binarySearch_ok (storeKeys s) k idx hbs
      rw [storeKeys_length] at hlt
      rw [List.getElem?_eq_getElem hlt] at h
      have hit : s.items[idx] = it := by simpa using h
      refine ⟨hit ▸ List.getElem_mem hlt, ?_⟩
      rw [storeKeys_getD s idx hlt, getD_eq_of_getElem s.items default idx hlt, hit] at hval
      exact hval
  · rintro ⟨hmem, hid⟩
    obtain ⟨j, hj, hjv⟩ := List.mem_iff_getElem.1 hmem
    have hkey : (storeKeys s).getD j 0 = k := by
      rw [storeKeys_getD s j hj, getD_eq_of_getElem s.items default j hj, hjv, hid]
    cases hbs : binarySearch (storeKeys s) k with
    | error i =>
      exfalso
      exact binarySearch_err_not_mem (storeKeys s) k i hs hbs
        (hkey ▸ getD_mem (storeKeys s) 0 j (by simpa [storeKeys_length] using hj))
    | ok idx =>
      obtain ⟨hlt, hval⟩ := binarySearch_ok (storeKeys s) k idx hbs
      have hidx : idx = j :=
        strictSorted_key_unique (storeKeys s) hs k idx j hlt
          (by simpa [storeKeys_length] using hj) hval hkey
      subst hidx
      rw [find_eq_ok s k idx hbs, List.getElem?_eq_getElem (by rwa [storeKeys_length] at hlt),
        hjv]

theorem find_none_iff (s : ItemStore) (hs : StoreSorted s) (k : Nat) :
    s.find k = none ↔ k ∉ storeKeys s := by
  constructor
  · intro h hmem
    obtain ⟨i, hok⟩ := binarySearch_mem_ok (storeKeys s) k hs hmem
    rw [find_eq_ok s k i hok] at h
    obtain ⟨hlt, _⟩ := binarySearch_ok (storeKeys s) k i hok
    rw [List.getElem?_eq_getElem (by rwa [storeKeys_length] at hlt)] at h
    cases h
  · intro hnm
    cases hbs : binarySearch (storeKeys s) k with
    | ok idx =>
      exfalso
      obtain ⟨hlt, hval⟩ := binarySearch_ok (storeKeys s) k idx hbs
      exact hnm (hval ▸ getD_mem (storeKeys s) 0 idx hlt)
    | error i => exact find_eq_err s k i hbs

theorem find_isSome_iff (s : ItemStore) (hs : StoreSorted s) (k : Nat) :
    (s.find k).isSome = true ↔ k ∈ storeKeys s := by
  cases hf : s.find k with
  | none =>
    simp only [Option.isSome_none, Bool.false_eq_true, false_iff]
    exact (find_none_iff s hs k).1 hf
  | some it =>
    simp only [Option.isSome_some, true_iff]
    obtain ⟨hmem, hid⟩ := (find_some_iff s hs k it).1 hf
    exact (mem_storeKeys s k).2 ⟨it, hmem, hid⟩

theorem storeKeys_insertIdx (s : ItemStore) (idx : Nat) (item : Item) :
    storeKeys ⟨s.items.insertIdx idx item⟩ = (storeKeys s).insertIdx idx item.id := by
  simp only [storeKeys]
  exact map_insertIdx Item.id item idx s.items

theorem set_keys_same (s : ItemStore) (idx : Nat) (item : Item) (hidx : idx < s.items.length)
    (hid : (storeKeys s).getD idx 0 = item.id) :
    storeKeys ⟨s.items.set idx item⟩ = storeKeys s := by
  simp only [storeKeys, List.map_set]
  apply set_self_of_getElem _ _ _ (by simpa [← storeKeys_length s] using hidx)
  rw [← getD_eq_of_getElem _ 0 idx (by simpa [← storeKeys_length s] using hidx)]
  exact hid.symm ▸ rfl

theorem append_present (s : ItemStore) (item : Item) (hs : StoreSorted s)
    (hmem : item.id ∈ storeKeys s) : s.append item = (false, s) := by
  obtain ⟨i, hok⟩ := binarySearch_mem_ok (storeKeys s) item.id hs hmem
  exact append_eq_ok s item i hok

theorem append_absent (s : ItemStore) (item : Item) (hs : StoreSorted s)
    (hab : item.id ∉ storeKeys s) :
    ∃ idx, idx ≤ s.items.length ∧ s.append item = (true, ⟨s.items.insertIdx idx item⟩) := by
  cases hbs : binarySearch (storeKeys s) item.id with
  | ok i =>
    exfalso
    obtain ⟨hlt, hval⟩ := binarySearch_ok (storeKeys s) item.id i hbs
    exact hab (hval ▸ getD_mem (storeKeys s) 0 i hlt)
  | error idx =>
    obtain ⟨hle, _, _⟩ := binarySearch_err (storeKeys s) item.id idx hs hbs
    exact ⟨idx, by rwa [storeKeys_length] at hle, append_eq_err s item idx hbs⟩

theorem append_sorted (s : ItemStore) (item : Item) (hs : StoreSorted s) :
    StoreSorted (s.append item).2 := by
  cases hbs : binarySearch (storeKeys s) item.id with
  | ok i =>
    rw [append_eq_ok s item i hbs]
    exact hs
  | error idx =>
    rw [append_eq_err s item idx hbs]
    obtain ⟨hle, hl, hr⟩ := binarySearch_err (storeKeys s) item.id idx hs hbs
    unfold StoreSorted
    rw [storeKeys_insertIdx]
    exact strictSorted_insertIdx (storeKeys s) item.id idx hle hs hl hr

theorem append_mem (s : ItemStore) (item : Item) (hs : StoreSorted s)
    (it : Item) (hmem : it ∈ s.items) : it ∈ (s.append item).2.items := by
  cases hbs : binarySearch (storeKeys s) item.id with
  | ok i =>
    rw [append_eq_ok s item i hbs]
    exact hmem
  | error idx =>
    rw [append_eq_err s item idx hbs]
    obtain ⟨hle, _, _⟩ := binarySearch_err (storeKeys s) item.id idx hs hbs
    rw [storeKeys_length] at hle
    exact (List.mem_insertIdx hle).2 (Or.inr hmem)

theorem replace_sorted (s : ItemStore) (item : Item) (hs : StoreSorted s) :
    StoreSorted (s.replace item).2 := by
  cases hbs : binarySearch (storeKeys s) item.id with
  | ok idx =>
    rw [replace_eq_ok s item idx hbs]
    obtain ⟨hlt, hval⟩ := binarySearch_ok (storeKeys s) item.id idx hbs
    rw [storeKeys_length] at hlt
    unfold StoreSorted
    rw [set_keys_same s idx item hlt hval]
    exact hs
  | error i =>
    rw [replace_eq_err s item i hbs]
    exact hs

theorem set_eq_map_found (s : ItemStore) (hs : StoreSorted s) (idx : Nat) (item : Item)
    (hidx : idx < s.items.length) (hid : (storeKeys s).getD idx 0 = item.id) :
    s.items.set idx item = s.items.map (fun e => if e.id = item.id then item else e) := by
  apply List.ext_getElem (by simp)
  intro j h1 h2
  have hjlen : j < s.items.length := by simpa using h1
  rw [List.getElem_map]
  by_cases hj : idx = j
  · subst hj
    rw [List.getElem_set_self h1]
    have : s.items[idx].id = item.id := by
      rw [← getD_eq_of_getElem s.items default idx hjlen, ← storeKeys_getD s idx hjlen]
      exact hid
    rw [if_pos this]
  · rw [List.getElem_set_ne hj h1]
    have hne : s.items[j].id ≠ item.id := by
      intro hcontra
      apply hj
      refine strictSorted_key_unique (storeKeys s) hs item.id idx j
        (by rwa [storeKeys_length]) (by rwa [storeKeys_length]) hid ?_
      rw [storeKeys_getD s j hjlen, getD_eq_of_getElem s.items default j hjlen]
      exact hcontra
    rw [if_neg hne]

theorem diffStep_sorted (st : DiffState) (item : Item) (hs : StoreSorted st.store) :
    StoreSorted (diffStep st item).store := by
  cases hbs : binarySearch (storeKeys st.store) item.id with
  | ok idx =>
    rw [diffStep_eq_ok st item idx hbs]
    obtain ⟨hlt, hval⟩ := binarySearch_ok (storeKeys st.store) item.id idx hbs
    rw [storeKeys_length] at hlt
    unfold StoreSorted
    rw [set_keys_same st.store idx item hlt hval]
    exact hs
  | error i =>
    rw [diffStep_eq_err st item i hbs]
    exact append_sorted st.store item hs

theorem diffStep_find_self (st : DiffState) (item : Item) (hs : StoreSorted st.store) :
    (diffStep st item).store.find item.id = some item := by
  cases hbs : binarySearch (storeKeys st.store) item.id with
  | ok idx =>
    obtain ⟨hlt, hval⟩ := binarySearch_ok (storeKeys st.store) item.id idx hbs
    rw [storeKeys_length] at hlt
    have hsorted : StoreSorted (diffStep st item).store := diffStep_sorted st item hs
    rw [diffStep_eq_ok st item idx hbs] at hsorted ⊢
    refine (find_some_iff _ hsorted item.id item).2 ⟨?_, rfl⟩
    exact List.mem_iff_getElem.2
      ⟨idx, by simpa using hlt, List.getElem_set_self (by simpa using hlt)⟩
  | error i =>
    obtain ⟨hle, _, _⟩ := binarySearch_err (storeKeys st.store) item.id i hs hbs
    rw [storeKeys_length] at hle
    have hsorted : StoreSorted (diffStep st item).store := diffStep_sorted st item hs
    rw [diffStep_eq_err st item i hbs] at hsorted ⊢
    rw [append_eq_err st.store item i hbs] at hsorted ⊢
    refine (find_some_iff _ hsorted item.id item).2 ⟨?_, rfl⟩
    exact (List.mem_insertIdx hle).2 (Or.inl rfl)

theorem diffStep_find_other (st : DiffState) (item : Item) (k : Nat)
    (hs : StoreSorted st.store) (hk : k ≠ item.id) :
    (diffStep st item).store.find k = st.store.find k := by
  have hsorted : StoreSorted (diffStep st item).store := diffStep_sorted st item hs
  cases hf : st.store.find k with
  | some it =>
    obtain ⟨hmem, hid⟩ := (find_some_iff st.store hs k it).1 hf
    refine (find_some_iff _ hsorted k it).2 ⟨?_, hid⟩
    cases hbs : binarySearch (storeKeys st.store) item.id with
    | ok idx =>
      obtain ⟨hlt, hval⟩ := binarySearch_ok (storeKeys st.store) item.id idx hbs
      rw [storeKeys_length] at hlt
      rw [diffStep_eq_ok st item idx hbs]
      obtain ⟨j, hj, hjv⟩ := List.mem_iff_getElem.1 hmem
      have hji : j ≠ idx := by
        intro hcontra
        subst hcontra
        apply hk
        rw [← hid, ← hjv]
        rw [storeKeys_getD st.store j (by omega), getD_eq_of_getElem _ default j (by omega)]
          at hval
        rw [hval]
      refine List.mem_iff_getElem.2 ⟨j, by simpa using hj, ?_⟩
      rw [List.getElem_set_ne (fun h => hji h.symm) (by simpa using hj)]
      exact hjv
    | error i =>
      obtain ⟨hle, _, _⟩ := binarySearch_err (storeKeys st.store) item.id i hs hbs
      rw [storeKeys_length] at hle
      rw [diffStep_eq_err st item i hbs, append_eq_err st.store item i hbs]
      exact (List.mem_insertIdx hle).2 (Or.inr hmem)
  | none =>
    have hnm := (find_none_iff st.store hs k).1 hf
    refine (find_none_iff _ hsorted k).2 ?_
    cases hbs : binarySearch (storeKeys st.store) item.id with
    | ok idx =>
      obtain ⟨hlt, hval⟩ := binarySearch_ok (storeKeys st.store) item.id idx hbs
      rw [storeKeys_length] at hlt
      rw [diffStep_eq_ok st item idx hbs]
      intro hmem
      apply hnm
      rwa [show (⟨st.store.items.set idx item⟩ : ItemStore) = ⟨st.store.items.set idx item⟩
        from rfl, set_keys_same st.store idx item hlt hval] at hmem
    | error i =>
      obtain ⟨hle, _, _⟩ := binarySearch_err (storeKeys st.store) item.id i hs hbs
      rw [diffStep_eq_err st item i hbs, append_eq_err st.store item i hbs]
      intro hmem
      rw [storeKeys_insertIdx] at hmem
      rcases (List.mem_insertIdx hle).1 hmem with h | h
      · exact hk h
      · exact hnm h

theorem diffStep_events_shape (st : DiffState) (item : Item) :
    ∃ extra, (diffStep st item).events = st.events ++ extra ∧
      ∀ p ∈ extra, Prod.fst p = item.id := by
  cases hbs : binarySearch (storeKeys st.store) item.id with
  | ok idx =>
    rw [diffStep_eq_ok st item idx hbs]
    refine ⟨_, (List.append_assoc _ _ _), ?_⟩
    intro p hp
    rcases List.mem_append.1 hp with h | h
    · rcases List.mem_ite_nil_right.1 h with ⟨_, hmem⟩
      rcases List.mem_singleton.1 hmem with rfl
      rfl
    · rcases List.mem_ite_nil_right.1 h with ⟨_, hmem⟩
      rcases List.mem_singleton.1 hmem with rfl
      rfl
  | error i =>
    rw [diffStep_eq_err st item i hbs]
    refine ⟨[(item.id, ItemEvent.Added)], rfl, ?_⟩
    intro p hp
    rcases List.mem_singleton.1 hp with rfl
    rfl

theorem diffStep_id_mem (st : DiffState) (item : Item) (hs : StoreSorted st.store)
    (k : Nat) (hmem : k ∈ storeKeys st.store) :
    k ∈ storeKeys (diffStep st item).store := by
  have hsorted : StoreSorted (diffStep st item).store := diffStep_sorted st item hs
  by_cases hk : k = item.id
  · subst hk
    have := diffStep_find_self st item hs
    obtain ⟨hm, hid⟩ := (find_some_iff _ hsorted item.id item).1 this
    exact (mem_storeKeys _ item.id).2 ⟨item, hm, hid⟩
  · have := diffStep_find_other st item k hs hk
    obtain ⟨it, hm, hid⟩ := (mem_storeKeys _ k).1 hmem
    have hf : st.store.find k = some it := (find_some_iff st.store hs k it).2 ⟨hm, hid⟩
    rw [hf] at this
    obtain ⟨hm2, hid2⟩ := (find_some_iff _ hsorted k it).1 this
    exact (mem_storeKeys _ k).2 ⟨it, hm2, hid2⟩

theorem foldDiff_sorted (items : List Item) :
    ∀ st : DiffState, StoreSorted st.store →
      StoreSorted ((items.foldl diffStep st).store) := by
  induction items with
  | nil => intro st hs; exact hs
  | cons x rest ih =>
    intro st hs
    rw [List.foldl_cons]
    exact ih (diffStep st x) (diffStep_sorted st x hs)

theorem foldDiff_find_preserved (items : List Item) :
    ∀ st : DiffState, ∀ k : Nat, StoreSorted st.store → k ∉ items.map Item.id →
      ((items.foldl diffStep st).store.find k) = st.store.find k := by
  induction items with
  | nil => intro st k _ _; rfl
  | cons x rest ih =>
    intro st k hs hk
    rw [List.foldl_cons]
    have hk1 : k ≠ x.id := by
      intro h
      exact hk (by simp [h])
    have hk2 : k ∉ rest.map Item.id := by
      intro h
      exact hk (by simp [h])
    rw [ih (diffStep st x) k (diffStep_sorted st x hs) hk2]
    exact diffStep_find_other st x k hs hk1

theorem foldDiff_find_processed (items : List Item) :
    ∀ st : DiffState, StoreSorted st.store → (items.map Item.id).Nodup →
      ∀ it ∈ items, ((items.foldl diffStep st).store.find it.id) = some it := by
  induction items with
  | nil => intro st _ _ it hmem; cases hmem
  | cons x rest ih =>
    intro st hs hnd it hmem
    rw [List.foldl_cons]
    rw [List.map_cons, List.nodup_cons] at hnd
    rcases List.mem_cons.1 hmem with rfl | hmem2
    · rw [foldDiff_find_preserved rest (diffStep st it) it.id
        (diffStep_sorted st it hs) hnd.1]
      exact diffStep_find_self st it hs
    · exact ih (diffStep st x) (diffStep_sorted st x hs) hnd.2 it hmem2

theorem diffStep_noop (st : DiffState) (it : Item) (hs : StoreSorted st.store)
    (hfind : st.store.find it.id = some it) : diffStep st it = st := by
  cases hbs : binarySearch (storeKeys st.store) it.id with
  | error i =>
    rw [find_eq_err st.store it.id i hbs] at hfind
    cases hfind
  | ok idx =>
    obtain ⟨hlt, hval⟩ := binarySearch_ok (storeKeys st.store) it.id idx hbs
    rw [storeKeys_length] at hlt
    rw [find_eq_ok st.store it.id idx hbs, List.getElem?_eq_getElem hlt] at hfind
    have hit : st.store.items[idx] = it := by simpa using hfind
    rw [diffStep_eq_ok st it idx hbs]
    have hgd : st.store.items.getD idx default = it := by
      rw [getD_eq_of_getElem st.store.items default idx hlt, hit]
    rw [hgd]
    rw [if_neg (by simp : ¬ it.state ≠ it.state), if_neg (by omega : ¬ (it.amount_left > 0 ∧ it.amount_left = 0))]
    rcases st with ⟨⟨itemsl⟩, evs⟩
    simp only [List.append_nil]
    congr 1
    exact congrArg ItemStore.mk (set_self_of_getElem itemsl idx it hlt hit)

theorem foldDiff_noop (items : List Item) :
    ∀ st : DiffState, StoreSorted st.store →
      (∀ it ∈ items, st.store.find it.id = some it) →
      items.foldl diffStep st = st := by
  induction items with
  | nil => intro st _ _; rfl
  | cons x rest ih =>
    intro st hs hall
    rw [List.foldl_cons, diffStep_noop st x hs (hall x (List.mem_cons_self x rest))]
    exact ih st hs (fun it hmem => hall it (List.mem_cons_of_mem x hmem))

theorem foldDiff_event_ids (items : List Item) :
    ∀ st : DiffState, StoreSorted st.store →
      (∀ p ∈ st.events, Prod.fst p ∈ storeKeys st.store) →
      ∀ p ∈ (items.foldl diffStep st).events,
        Prod.fst p ∈ storeKeys ((items.foldl diffStep st).store) := by
  induction items with
  | nil => intro st _ hinv p hp; exact hinv p hp
  | cons x rest ih =>
    intro st hs hinv
    rw [List.foldl_cons]
    refine ih (diffStep st x) (diffStep_sorted st x hs) ?_
    intro p hp
    obtain ⟨extra, hev, hex⟩ := diffStep_events_shape st x
    rw [hev] at hp
    rcases List.mem_append.1 hp with h | h
    · exact diffStep_id_mem st x hs (Prod.fst p) (hinv p h)
    · rw [hex p h]
      have hf := diffStep_find_self st x hs
      obtain ⟨hm, hid⟩ :=
        (find_some_iff _ (diffStep_sorted st x hs) x.id x).1 hf
      exact (mem_storeKeys _ x.id).2 ⟨x, hm, hid⟩

/-! ### Trace lemmas -/

theorem length_catSteps (n : Nat) : (catSteps n).length = 2 * n := by
  induction n with
  | zero => rfl
  | succ m ih =>
    rw [catSteps, List.length_append, ih]
    simp
    omega

theorem mem_catSteps_fetchItems (c n : Nat) : Step.fetchItems c ∈ catSteps n ↔ c < n := by
  induction n with
  | zero => simp [catSteps]
  | succ m ih =>
    rw [catSteps, List.mem_append, ih]
    constructor
    · rintro (h | h)
      · omega
      · rcases List.mem_cons.1 h with h1 | h1
        · cases h1
          omega
        · rcases List.mem_singleton.1 h1 with h2
          cases h2
    · intro h
      by_cases hc : c < m
      · exact Or.inl hc
      · have : c = m := by omega
        subst this
        exact Or.inr (List.mem_cons_self _ _)

theorem mem_catSteps_diffCategory (c n : Nat) : Step.diffCategory c ∈ catSteps n ↔ c < n := by
  induction n with
  | zero => simp [catSteps]
  | succ m ih =>
    rw [catSteps, List.mem_append, ih]
    constructor
    · rintro (h | h)
      · omega
      · rcases List.mem_cons.1 h with h1 | h1
        · cases h1
        · rcases List.mem_singleton.1 h1 with h2
          cases h2
          omega
    · intro h
      by_cases hc : c < m
      · exact Or.inl hc
      · have : c = m := by omega
        subst this
        exact Or.inr (by simp)

theorem not_mem_catSteps (s : Step) (hs : ∀ c, s ≠ Step.fetchItems c ∧ s ≠ Step.diffCategory c) :
    ∀ n, s ∉ catSteps n := by
  intro n
  induction n with
  | zero => simp [catSteps]
  | succ m ih =>
    rw [catSteps, List.mem_append]
    rintro (h | h)
    · exact ih h
    · rcases List.mem_cons.1 h with h1 | h1
      · exact (hs m).1 h1
      · rcases List.mem_singleton.1 h1 with h2
        exact (hs m).2 h2

theorem indexOf_catSteps_fetchItems (c n : Nat) (hc : c < n) :
    (catSteps n).indexOf (Step.fetchItems c) = 2 * c := by
  induction n with
  | zero => omega
  | succ m ih =>
    rw [catSteps]
    by_cases hcm : c < m
    · rw [List.indexOf_append_of_mem ((mem_catSteps_fetchItems c m).2 hcm)]
      exact ih hcm
    · have : c = m := by omega
      subst this
      rw [List.indexOf_append_of_not_mem (by
        rw [mem_catSteps_fetchItems]
        omega), length_catSteps]
      simp [List.indexOf_cons]

theorem indexOf_catSteps_diffCategory (c n : Nat) (hc : c < n) :
    (catSteps n).indexOf (Step.diffCategory c) = 2 * c + 1 := by
  induction n with
  | zero => omega
  | succ m ih =>
    rw [catSteps]
    by_cases hcm : c < m
    · rw [List.indexOf_append_of_mem ((mem_catSteps_diffCategory c m).2 hcm)]
      exact ih hcm
    · have : c = m := by omega
      subst this
      rw [List.indexOf_append_of_not_mem (by
        rw [mem_catSteps_diffCategory]
        omega), length_catSteps]
      simp [List.indexOf_cons]

theorem indexOf_mainTrace_login (n : Nat) : (mainTrace n).indexOf Step.login = 2 := by
  rw [mainTrace, List.indexOf_append_of_mem (List.mem_append.2 (Or.inl (by decide))),
    List.indexOf_append_of_mem (by decide)]
  decide

theorem indexOf_mainTrace_loadStore (n : Nat) : (mainTrace n).indexOf Step.loadStore = 3 := by
  rw [mainTrace, List.indexOf_append_of_mem (List.mem_append.2 (Or.inl (by decide))),
    List.indexOf_append_of_mem (by decide)]
  decide

theorem indexOf_mainTrace_fetchCategories (n : Nat) :
    (mainTrace n).indexOf Step.fetchCategories = 4 := by
  rw [mainTrace, List.indexOf_append_of_mem (List.mem_append.2 (Or.inl (by decide))),
    List.indexOf_append_of_mem (by decide)]
  decide

theorem indexOf_mainTrace_fetchItems (c n : Nat) (hc : c < n) :
    (mainTrace n).indexOf (Step.fetchItems c) = 5 + 2 * c := by
  rw [mainTrace,
    List.indexOf_append_of_mem
      (List.mem_append.2 (Or.inr ((mem_catSteps_fetchItems c n).2 hc))),
    List.indexOf_append_of_not_mem (by simp), indexOf_catSteps_fetchItems c n hc]
  simp

theorem indexOf_mainTrace_diffCategory (c n : Nat) (hc : c < n) :
    (mainTrace n).indexOf (Step.diffCategory c) = 5 + (2 * c + 1) := by
  rw [mainTrace,
    List.indexOf_append_of_mem
      (List.mem_append.2 (Or.inr ((mem_catSteps_diffCategory c n).2 hc))),
    List.indexOf_append_of_not_mem (by simp), indexOf_catSteps_diffCategory c n hc]
  simp

theorem indexOf_mainTrace_post (n : Nat) (s : Step)
    (hpre : s ∉ [Step.loadConfig, Step.getWebconfig, Step.login, Step.loadStore,
      Step.fetchCategories])
    (hcat : ∀ c, s ≠ Step.fetchItems c ∧ s ≠ Step.diffCategory c) :
    (mainTrace n).indexOf s =
      5 + 2 * n + [Step.logout, Step.render, Step.dispatch, Step.saveStore].indexOf s := by
  rw [mainTrace, List.indexOf_append_of_not_mem (by
    intro h
    rcases List.mem_append.1 h with h1 | h1
    · exact hpre h1
    · exact not_mem_catSteps s hcat n h1), List.length_append, length_catSteps]
  simp

theorem indexOf_mainTrace_logout (n : Nat) : (mainTrace n).indexOf Step.logout = 5 + 2 * n := by
  rw [indexOf_mainTrace_post n Step.logout (by decide)
    (fun c => by constructor <;> intro h <;> cases h), List.indexOf_cons_self]
  omega

theorem indexOf_mainTrace_dispatch (n : Nat) :
    (mainTrace n).indexOf Step.dispatch = 5 + 2 * n + 2 := by
  rw [indexOf_mainTrace_post n Step.dispatch (by decide)
    (fun c => by constructor <;> intro h <;> cases h), List.indexOf_cons_ne _ (by decide),
    List.indexOf_cons_ne _ (by decide), List.indexOf_cons_self]

theorem indexOf_mainTrace_saveStore (n : Nat) :
    (mainTrace n).indexOf Step.saveStore = 5 + 2 * n + 3 := by
  rw [indexOf_mainTrace_post n Step.saveStore (by decide)
    (fun c => by constructor <;> intro h <;> cases h), List.indexOf_cons_ne _ (by decide),
    List.indexOf_cons_ne _ (by decide), List.indexOf_cons_ne _ (by decide),
    List.indexOf_cons_self]

theorem append_find_self (s : ItemStore) (item : Item) (hs : StoreSorted s)
    (hab : item.id ∉ storeKeys s) : (s.append item).2.find item.id = some item := by
  cases hbs : binarySearch (storeKeys s) item.id with
  | ok i =>
    exfalso
    obtain ⟨hlt, hval⟩ := binarySearch_ok (storeKeys s) item.id i hbs
    exact hab (hval ▸ getD_mem (storeKeys s) 0 i hlt)
  | error idx =>
    obtain ⟨hle, _, _⟩ := binarySearch_err (storeKeys s) item.id idx hs hbs
    rw [storeKeys_length] at hle
    have hsorted := append_sorted s item hs
    rw [append_eq_err s item idx hbs] at hsorted ⊢
    exact (find_some_iff _ hsorted item.id item).2 ⟨(List.mem_insertIdx hle).2 (Or.inl rfl), rfl⟩

theorem find_none_of_search_none (s : ItemStore) (k : Nat)
    (hf : s.find k = none) : ∀ idx, binarySearch (storeKeys s) k ≠ .ok idx := by
  intro idx hbs
  obtain ⟨hlt, _⟩ := binarySearch_ok (storeKeys s) k idx hbs
  rw [find_eq_ok s k idx hbs, List.getElem?_eq_getElem (by rwa [storeKeys_length] at hlt)] at hf
  cases hf

/-! ### Claim theorems -/

/-- Claim C1: for every diff-loop state and every fetched item whose identifier is
already present in the store, the step appends exactly the buyability-transition
event (BecomeBuyable when the fetched state is ItemBuyable, BecomeUnbuyable when
it is ItemNotBuyable, via `buyEvent`) when the stored and fetched states differ,
and independently the OutOfStock event when the stored remaining stock was
positive and the fetched one is zero, and nothing else; and the stored entry is
replaced wholesale by the fetched item whether or not any event fired. -/
theorem c1_existing_item_diff (st : DiffState) (item existing : Item)
    (hs : StoreSorted st.store) (hfind : st.store.find item.id = some existing) :
    (diffStep st item).events = st.events
        ++ (if existing.state ≠ item.state then [(item.id, buyEvent item.state)] else [])
        ++ (if existing.amount_left > 0 ∧ item.amount_left = 0 then
              [(item.id, ItemEvent.OutOfStock)] else [])
      ∧ (diffStep st item).store.items
          = st.store.items.map (fun e => if e.id = item.id then item else e) := by
  cases hbs : binarySearch (storeKeys st.store) item.id with
  | error i =>
    rw [find_eq_err st.store item.id i hbs] at hfind
    cases hfind
  | ok idx =>
    obtain ⟨hlt, hval⟩ := binarySearch_ok (storeKeys st.store) item.id idx hbs
    rw [storeKeys_length] at hlt
    rw [find_eq_ok st.store item.id idx hbs, List.getElem?_eq_getElem hlt] at hfind
    have hex : st.store.items[idx] = existing := by simpa using hfind
    have hgd : st.store.items.getD idx default = existing := by
      rw [getD_eq_of_getElem _ default idx hlt, hex]
    rw [diffStep_eq_ok st item idx hbs]
    constructor
    · rw [hgd]
    · exact set_eq_map_found st.store hs idx item hlt hval

/-- Claim C1 witness: a store holding item 1 as not-buyable with zero stock and a
fetch of item 1 as buyable with stock 5 yields exactly one BecomeBuyable event
and the stored entry becomes the fetched item. -/
theorem c1_existing_item_diff_witness :
    (diffStep ⟨⟨[⟨1, "", ItemState.ItemNotBuyable, 0⟩]⟩, []⟩
        ⟨1, "", ItemState.ItemBuyable, 5⟩).events = [(1, ItemEvent.BecomeBuyable)]
      ∧ (diffStep ⟨⟨[⟨1, "", ItemState.ItemNotBuyable, 0⟩]⟩, []⟩
          ⟨1, "", ItemState.ItemBuyable, 5⟩).store.items
        = [⟨1, "", ItemState.ItemBuyable, 5⟩] := by
  have h := c1_existing_item_diff ⟨⟨[⟨1, "", ItemState.ItemNotBuyable, 0⟩]⟩, []⟩
    ⟨1, "", ItemState.ItemBuyable, 5⟩ ⟨1, "", ItemState.ItemNotBuyable, 0⟩
    (by decide) (by decide)
  constructor
  · rw [h.1]
    decide
  · rw [h.2]
    decide

/-- Claim C2 counterexample: with the empty store and a fetched dataset that
contains the same identifier twice with different states (as can happen when an
item is listed under two categories), the second identical diff run emits
events, so the claimed idempotence for every fetched dataset is false. -/
theorem c2_idempotence_counterexample :
    ¬ ((runDiff (runDiff ItemStore.new
          [⟨1, "a", ItemState.ItemNotBuyable, 0⟩, ⟨1, "a", ItemState.ItemBuyable, 5⟩]).store
        [⟨1, "a", ItemState.ItemNotBuyable, 0⟩, ⟨1, "a", ItemState.ItemBuyable, 5⟩]).events
        = []) := by
  decide

/-- Claim C2 (amended): for every store satisfying the sortedness invariant and
every fetched dataset whose identifiers are pairwise distinct, running the diff
a second time with the identical data produces no events and leaves the store
unchanged. -/
theorem c2_diff_idempotent (store : ItemStore) (items : List Item)
    (hs : StoreSorted store) (hnd : (items.map Item.id).Nodup) :
    runDiff (runDiff store items).store items
      = { store := (runDiff store items).store, events := [] } := by
  unfold runDiff
  apply foldDiff_noop
  · exact foldDiff_sorted items ⟨store, []⟩ hs
  · intro it hmem
    exact foldDiff_find_processed items ⟨store, []⟩ hs hnd it hmem

/-- Claim C2 witness: the amended idempotence at a concrete one-item fetch. -/
theorem c2_diff_idempotent_witness :
    runDiff (runDiff ItemStore.new [⟨1, "a", ItemState.ItemBuyable, 3⟩]).store
        [⟨1, "a", ItemState.ItemBuyable, 3⟩]
      = { store := (runDiff ItemStore.new [⟨1, "a", ItemState.ItemBuyable, 3⟩]).store,
          events := [] } :=
  c2_diff_idempotent ItemStore.new [⟨1, "a", ItemState.ItemBuyable, 3⟩] (by decide) (by decide)

theorem applyOp_sorted (s : ItemStore) (op : StoreOp) (hs : StoreSorted s) :
    StoreSorted (applyOp s op) := by
  cases op with
  | append it => exact append_sorted s it hs
  | replace it => exact replace_sorted s it hs
  | clear =>
    intro j hj
    simp [applyOp, ItemStore.clear, storeKeys] at hj

theorem applyOps_sorted (ops : List StoreOp) :
    ∀ s : ItemStore, StoreSorted s → StoreSorted (applyOps s ops) := by
  induction ops with
  | nil => intro s hs; exact hs
  | cons op rest ih =>
    intro s hs
    rw [applyOps, List.foldl_cons]
    exact ih (applyOp s op) (applyOp_sorted s op hs)

/-- Claim C3: starting from the empty store, after any sequence of append,
replace and clear operations the store is sorted by item identifier and holds
no two items with the same identifier. -/
theorem c3_store_invariant (ops : List StoreOp) :
    StoreSorted (applyOps ItemStore.new ops)
      ∧ (storeKeys (applyOps ItemStore.new ops)).Nodup := by
  have hsorted := applyOps_sorted ops ItemStore.new (by decide)
  exact ⟨hsorted, strictSorted_nodup _ hsorted⟩

/-- Claim C4: on a store satisfying the invariant, append with an already-present
identifier returns false and leaves the whole store unchanged, and append with
an absent identifier returns true, inserts the item at a sorted position
(preserving the invariant), and the item is findable afterwards. -/
theorem c4_append_spec (s : ItemStore) (item : Item) (hs : StoreSorted s) :
    (item.id ∈ storeKeys s → s.append item = (false, s))
      ∧ (item.id ∉ storeKeys s →
          (s.append item).1 = true
            ∧ (∃ idx, idx ≤ s.items.length
                ∧ (s.append item).2.items = s.items.insertIdx idx item)
            ∧ StoreSorted (s.append item).2
            ∧ (s.append item).2.find item.id = some item) := by
  constructor
  · intro hmem
    exact append_present s item hs hmem
  · intro hab
    obtain ⟨idx, hle, heq⟩ := append_absent s item hs hab
    refine ⟨by rw [heq], ⟨idx, hle, by rw [heq]⟩, append_sorted s item hs,
      append_find_self s item hs hab⟩

/-- Claim C4 witness: appending an item with present identifier 1 (but different
fields) is a no-op returning false; appending absent identifier 2 returns
true. -/
theorem c4_append_spec_witness :
    (⟨[⟨1, "w", ItemState.ItemBuyable, 2⟩, ⟨4, "x", ItemState.ItemNotBuyable, 0⟩]⟩ :
        ItemStore).append ⟨1, "z", ItemState.ItemNotBuyable, 9⟩
      = (false, ⟨[⟨1, "w", ItemState.ItemBuyable, 2⟩, ⟨4, "x", ItemState.ItemNotBuyable, 0⟩]⟩)
      ∧ ((⟨[⟨1, "w", ItemState.ItemBuyable, 2⟩, ⟨4, "x", ItemState.ItemNotBuyable, 0⟩]⟩ :
        ItemStore).append ⟨2, "y", ItemState.ItemBuyable, 1⟩).1 = true := by
  have h1 := c4_append_spec
    ⟨[⟨1, "w", ItemState.ItemBuyable, 2⟩, ⟨4, "x", ItemState.ItemNotBuyable, 0⟩]⟩
    ⟨1, "z", ItemState.ItemNotBuyable, 9⟩ (by decide)
  have h2 := c4_append_spec
    ⟨[⟨1, "w", ItemState.ItemBuyable, 2⟩, ⟨4, "x", ItemState.ItemNotBuyable, 0⟩]⟩
    ⟨2, "y", ItemState.ItemBuyable, 1⟩ (by decide)
  exact ⟨h1.1 (by decide), (h2.2 (by decide)).1⟩

/-- Claim C5: on a store satisfying the invariant, replace fails exactly when
the identifier is absent, leaving the store unchanged; when an entry is present
replace returns the previous entry and afterwards find on that identifier
returns the new item. -/
theorem c5_replace_spec (s : ItemStore) (item : Item) (hs : StoreSorted s) :
    (s.find item.id = none → s.replace item = (.error (), s))
      ∧ (∀ prev, s.find item.id = some prev →
          (s.replace item).1 = .ok prev
            ∧ (s.replace item).2.find item.id = some item) := by
  constructor
  · intro hf
    cases hbs : binarySearch (storeKeys s) item.id with
    | ok idx => exact absurd hbs (find_none_of_search_none s item.id hf idx)
    | error i => exact replace_eq_err s item i hbs
  · intro prev hf
    cases hbs : binarySearch (storeKeys s) item.id with
    | error i =>
      rw [find_eq_err s item.id i hbs] at hf
      cases hf
    | ok idx =>
      obtain ⟨hlt, hval⟩ := binarySearch_ok (storeKeys s) item.id idx hbs
      rw [storeKeys_length] at hlt
      rw [find_eq_ok s item.id idx hbs, List.getElem?_eq_getElem hlt] at hf
      have hprev : s.items[idx] = prev := by simpa using hf
      have hsorted := replace_sorted s item hs
      rw [replace_eq_ok s item idx hbs] at hsorted ⊢
      constructor
      · rw [getD_eq_of_getElem s.items default idx hlt, hprev]
      · refine (find_some_iff _ hsorted item.id item).2 ⟨?_, rfl⟩
        exact List.mem_iff_getElem.2
          ⟨idx, by simpa using hlt, List.getElem_set_self (by simpa using hlt)⟩

/-- Claim C5 witness: replacing absent identifier 3 fails and leaves the store
unchanged; replacing present identifier 4 returns the previous entry and the
new entry is findable. -/
theorem c5_replace_spec_witness :
    (⟨[⟨1, "w", ItemState.ItemBuyable, 2⟩, ⟨4, "x", ItemState.ItemNotBuyable, 0⟩]⟩ :
        ItemStore).replace ⟨3, "m", ItemState.ItemBuyable, 6⟩
      = (.error (), ⟨[⟨1, "w", ItemState.ItemBuyable, 2⟩, ⟨4, "x", ItemState.ItemNotBuyable, 0⟩]⟩)
      ∧ ((⟨[⟨1, "w", ItemState.ItemBuyable, 2⟩, ⟨4, "x", ItemState.ItemNotBuyable, 0⟩]⟩ :
          ItemStore).replace ⟨4, "n", ItemState.ItemBuyable, 7⟩).1
        = .ok ⟨4, "x", ItemState.ItemNotBuyable, 0⟩
      ∧ ((⟨[⟨1, "w", ItemState.ItemBuyable, 2⟩, ⟨4, "x", ItemState.ItemNotBuyable, 0⟩]⟩ :
          ItemStore).replace ⟨4, "n", ItemState.ItemBuyable, 7⟩).2.find 4
        = some ⟨4, "n", ItemState.ItemBuyable, 7⟩ := by
  have h1 := c5_replace_spec
    ⟨[⟨1, "w", ItemState.ItemBuyable, 2⟩, ⟨4, "x", ItemState.ItemNotBuyable, 0⟩]⟩
    ⟨3, "m", ItemState.ItemBuyable, 6⟩ (by decide)
  have h2 := c5_replace_spec
    ⟨[⟨1, "w", ItemState.ItemBuyable, 2⟩, ⟨4, "x", ItemState.ItemNotBuyable, 0⟩]⟩
    ⟨4, "n", ItemState.ItemBuyable, 7⟩ (by decide)
  have h3 := h2.2 ⟨4, "x", ItemState.ItemNotBuyable, 0⟩ (by decide)
  exact ⟨h1.1 (by decide), h3.1, h3.2⟩

/-- Claim C6: for every diff-loop state and every fetched item whose identifier
is absent from the store, the step emits exactly one Added event for that item
and nothing else, inserts the item into the store, and afterwards find on that
identifier returns the item. -/
theorem c6_new_item_diff (st : DiffState) (item : Item) (hs : StoreSorted st.store)
    (habsent : st.store.find item.id = none) :
    (diffStep st item).events = st.events ++ [(item.id, ItemEvent.Added)]
      ∧ (∃ idx, idx ≤ st.store.items.length
          ∧ (diffStep st item).store.items = st.store.items.insertIdx idx item)
      ∧ (diffStep st item).store.find item.id = some item := by
  cases hbs : binarySearch (storeKeys st.store) item.id with
  | ok idx => exact absurd hbs (find_none_of_search_none st.store item.id habsent idx)
  | error i =>
    obtain ⟨hle, _, _⟩ := binarySearch_err (storeKeys st.store) item.id i hs hbs
    rw [storeKeys_length] at hle
    refine ⟨by rw [diffStep_eq_err st item i hbs], ⟨i, hle, ?_⟩,
      diffStep_find_self st item hs⟩
    rw [diffStep_eq_err st item i hbs, append_eq_err st.store item i hbs]

/-- Claim C6 witness: a fetch of a fresh item into the empty store yields one
Added event and the item is findable afterwards. -/
theorem c6_new_item_diff_witness :
    (diffStep ⟨ItemStore.new, []⟩ ⟨2, "n", ItemState.ItemBuyable, 1⟩).events
        = [(2, ItemEvent.Added)]
      ∧ (diffStep ⟨ItemStore.new, []⟩ ⟨2, "n", ItemState.ItemBuyable, 1⟩).store.find 2
        = some ⟨2, "n", ItemState.ItemBuyable, 1⟩ := by
  have h := c6_new_item_diff ⟨ItemStore.new, []⟩ ⟨2, "n", ItemState.ItemBuyable, 1⟩
    (by decide) (by decide)
  exact ⟨h.1, h.2.2⟩

/-- Claim C7: a rendered payload longer than 2000 bytes is cut to its first
1800 bytes with the fixed truncation notice appended, and a payload of at most
2000 bytes is left unmodified. -/
theorem c7_truncation (buf : List Nat) :
    (buf.length > 2000 →
        truncateBuf buf = buf.take 1800 ++ truncationNotice
          ∧ (truncateBuf buf).length = 1800 + truncationNotice.length)
      ∧ (buf.length ≤ 2000 → truncateBuf buf = buf) := by
  constructor
  · intro h
    have heq : truncateBuf buf = buf.take 1800 ++ truncationNotice := by
      unfold truncateBuf
      rw [if_pos h]
    refine ⟨heq, ?_⟩
    rw [heq, List.length_append, List.length_take]
    congr 1
    omega
  · intro h
    unfold truncateBuf
    rw [if_neg (by omega)]

/-- Claim C7 witness: a 2500-byte payload becomes its first 1800 bytes plus the
notice; a 500-byte payload is unchanged. -/
theorem c7_truncation_witness :
    truncateBuf (List.replicate 2500 7) = List.replicate 1800 7 ++ truncationNotice
      ∧ truncateBuf (List.replicate 500 7) = List.replicate 500 7 := by
  have h1 := (c7_truncation (List.replicate 2500 7)).1 (by rw [List.length_replicate]; omega)
  have h2 := (c7_truncation (List.replicate 500 7)).2 (by rw [List.length_replicate]; omega)
  refine ⟨?_, h2⟩
  rw [h1.1, List.take_replicate]
  norm_num

/-- Claim C8: an empty rendered payload is delivered to no target; a non-empty
payload is attempted on every configured target in order, and one target's
failure does not prevent the attempts on the others (the outcome function is
arbitrary and the attempted-target list never depends on it). -/
theorem c8_dispatch_spec {τ : Type} (respond : τ → Bool) (buf : List Nat)
    (targets : List τ) :
    (buf = [] → dispatchAll respond buf targets = [])
      ∧ (buf ≠ [] →
          (dispatchAll respond buf targets).map Prod.fst = targets
            ∧ ∀ t ∈ targets, (t, respond t) ∈ dispatchAll respond buf targets) := by
  constructor
  · intro h
    subst h
    rfl
  · intro h
    unfold dispatchAll
    rw [if_neg (by rw [List.isEmpty_eq_false.2 h]; exact Bool.false_ne_true)]
    constructor
    · rw [List.map_map]
      exact List.map_id _
    · intro t hmem
      exact List.mem_map_of_mem _ hmem

/-- Claim C8 witness: three targets where the middle one fails; all three are
attempted and the other two succeed. -/
theorem c8_dispatch_spec_witness :
    (dispatchAll (fun t : Nat => t != 20) [1] [10, 20, 30]).map Prod.fst = [10, 20, 30]
      ∧ (10, true) ∈ dispatchAll (fun t : Nat => t != 20) [1] [10, 20, 30]
      ∧ (20, false) ∈ dispatchAll (fun t : Nat => t != 20) [1] [10, 20, 30]
      ∧ (30, true) ∈ dispatchAll (fun t : Nat => t != 20) [1] [10, 20, 30] := by
  have h := (c8_dispatch_spec (fun t : Nat => t != 20) [1] [10, 20, 30]).2 (by decide)
  refine ⟨h.1, ?_, ?_, ?_⟩
  · have := h.2 10 (by decide)
    simpa using this
  · have := h.2 20 (by decide)
    simpa using this
  · have := h.2 30 (by decide)
    simpa using this

/-- Claim C9 counterexample: in the run trace of main (here with one category)
the item store is loaded at position 3, after the login at position 2, so the
claim that the persisted store is loaded before the Session Client
authenticates is false. -/
theorem c9_order_counterexample :
    ¬ ((mainTrace 1).indexOf Step.loadStore < (mainTrace 1).indexOf Step.login) := by
  decide

/-- Claim C9 (amended): in every run, login comes first, then the persisted
store is loaded, then the category list is fetched; each category's items are
fetched and diffed after that and before logout; dispatch follows logout and
the store is rewritten last. -/
theorem c9_run_order (n : Nat) (c : Nat) (hc : c < n) :
    (mainTrace n).indexOf Step.login < (mainTrace n).indexOf Step.loadStore
      ∧ (mainTrace n).indexOf Step.loadStore < (mainTrace n).indexOf Step.fetchCategories
      ∧ (mainTrace n).indexOf Step.fetchCategories < (mainTrace n).indexOf (Step.fetchItems c)
      ∧ (mainTrace n).indexOf (Step.fetchItems c) < (mainTrace n).indexOf (Step.diffCategory c)
      ∧ (mainTrace n).indexOf (Step.diffCategory c) < (mainTrace n).indexOf Step.logout
      ∧ (mainTrace n).indexOf Step.logout < (mainTrace n).indexOf Step.dispatch
      ∧ (mainTrace n).indexOf Step.dispatch < (mainTrace n).indexOf Step.saveStore := by
  rw [indexOf_mainTrace_login, indexOf_mainTrace_loadStore, indexOf_mainTrace_fetchCategories,
    indexOf_mainTrace_fetchItems c n hc, indexOf_mainTrace_diffCategory c n hc,
    indexOf_mainTrace_logout, indexOf_mainTrace_dispatch, indexOf_mainTrace_saveStore]
  omega

/-- Claim C9 witness: the amended order at a one-category run. -/
theorem c9_run_order_witness :
    (mainTrace 1).indexOf Step.login < (mainTrace 1).indexOf Step.loadStore
      ∧ (mainTrace 1).indexOf Step.loadStore < (mainTrace 1).indexOf Step.fetchCategories
      ∧ (mainTrace 1).indexOf Step.fetchCategories < (mainTrace 1).indexOf (Step.fetchItems 0)
      ∧ (mainTrace 1).indexOf (Step.fetchItems 0) < (mainTrace 1).indexOf (Step.diffCategory 0)
      ∧ (mainTrace 1).indexOf (Step.diffCategory 0) < (mainTrace 1).indexOf Step.logout
      ∧ (mainTrace 1).indexOf Step.logout < (mainTrace 1).indexOf Step.dispatch
      ∧ (mainTrace 1).indexOf Step.dispatch < (mainTrace 1).indexOf Step.saveStore :=
  c9_run_order 1 0 (by decide)

/-- Claim C10: every identifier appearing in the event list accumulated by the
diff pass is present in the final store, so the per-event lookup in the
rendering loop always succeeds and the skip-with-warning branch is
unreachable. -/
theorem c10_event_ids_resolvable (store : ItemStore) (items : List Item)
    (hs : StoreSorted store) :
    ∀ p ∈ (runDiff store items).events,
      ((runDiff store items).store.find (Prod.fst p)).isSome = true := by
  intro p hp
  have hmem := foldDiff_event_ids items ⟨store, []⟩ hs (by intro q hq; cases hq) p hp
  exact (find_isSome_iff _ (foldDiff_sorted items ⟨store, []⟩ hs) _).2 hmem

/-- Claim C10 witness: the Added event recorded for a fresh item resolves in
the final store. -/
theorem c10_event_ids_resolvable_witness :
    ((runDiff ItemStore.new [⟨3, "n", ItemState.ItemBuyable, 1⟩]).store.find 3).isSome
      = true := by
  have h := c10_event_ids_resolvable ItemStore.new [⟨3, "n", ItemState.ItemBuyable, 1⟩]
    (by decide)
  exact h (3, ItemEvent.Added) (by decide)
